import Mathlib

/-!
# Verification of the AliceVision panorama-stitching pipeline core

Shallow embedding of `src/software/pipeline/main_panoramaStitching.cpp`.
Floating-point scalars are modelled as real numbers; integer image
dimensions as naturals (they come from unsigned view metadata) cast to
`ℤ`/`ℝ` where the C++ code performs such conversions.
-/

namespace PanoramaStitching

open Real

/-- RGB color triple, one pixel of a source image (float r, g, b). -/
structure RGBf where
  r : ℝ
  g : ℝ
  b : ℝ

/-- One accumulator cell of the output panorama buffer: (r, g, b, weight),
the weight is stored in the alpha channel. -/
structure Cell where
  r : ℝ
  g : ℝ
  b : ℝ
  a : ℝ

/-- The all-zero cell the output buffer is initialized with:
`image::RGBAfColor(0.0f, 0.0f, 0.0f, 0.0f)` (line 210). -/
def zeroCell : Cell := ⟨0, 0, 0, 0⟩

/-- Embedding of `sigmoid` (lines 38-41):
`1.0f / (1.0f + expf(10.0f * ((x - sigMid) / sigwidth)))`. -/
noncomputable def sigmoid (x sigwidth sigMid : ℝ) : ℝ :=
  1 / (1 + Real.exp (10 * ((x - sigMid) / sigwidth)))

/-- Longitude term of `SphericalMapping::get3DPoint` (lines 50, 53):
`x = pos2d(0) - width; longitude = M_PI * 2.0 * x / width`. -/
noncomputable def sphLongitude (px : ℝ) (width : ℤ) : ℝ :=
  π * 2 * (px - width) / width

/-- Latitude term of `SphericalMapping::get3DPoint` (lines 51, 54):
`y = height/2.0 - pos2d(1); latitude = M_PI * y / height`. -/
noncomputable def sphLatitude (py : ℝ) (height : ℤ) : ℝ :=
  π * ((height : ℝ) / 2 - py) / height

/-- Embedding of `SphericalMapping::get3DPoint` (lines 48-61): maps an
output pixel coordinate to a unit ray on the sphere. -/
noncomputable def get3DPoint (pos2d : ℝ × ℝ) (width height : ℤ) : ℝ × ℝ × ℝ :=
  let longitude := sphLongitude pos2d.1 width
  let latitude := sphLatitude pos2d.2 height
  (Real.cos latitude * Real.cos longitude,
   Real.cos latitude * Real.sin longitude,
   Real.sin latitude)

/-! ## Size estimation (lines 166-205) -/

/-- EXIF orientation tag of a view (`sfmData::EEXIFOrientation`). -/
inductive EEXIFOrientation where
  | UNKNOWN
  | NONE
  | REVERSED
  | UPSIDEDOWN
  | UPSIDEDOWN_REVERSED
  | LEFT_REVERSED
  | LEFT
  | RIGHT_REVERSED
  | RIGHT
deriving DecidableEq

/-- The orientation test of lines 186-189: the tag denotes a rotated
(portrait-style) capture. -/
def isRotatedOrientation (o : EEXIFOrientation) : Bool :=
  o = EEXIFOrientation.RIGHT || o = EEXIFOrientation.LEFT ||
  o = EEXIFOrientation.RIGHT_REVERSED || o = EEXIFOrientation.LEFT_REVERSED

/-- A view of the dataset: width, height (unsigned in C++), EXIF
orientation tag and the `isPoseAndIntrinsicDefined` validity flag. -/
structure View where
  width : ℕ
  height : ℕ
  orientation : EEXIFOrientation
  poseAndIntrinsicDefined : Bool

/-- `sfmData.getValidViews()` intersected with iteration order: the views
whose pose and intrinsic are defined, in dataset order. -/
def validViews (views : List View) : List View :=
  views.filter (·.poseAndIntrinsicDefined)

/-- One step of the size-accumulation loop (lines 186-198). The branch is
decided by `orientation`, the tag read once before the loop — not by the
current view's own tag. -/
def sizeStep (orientation : EEXIFOrientation) (size : ℤ × ℤ) (view : View) : ℤ × ℤ :=
  if isRotatedOrientation orientation then
    (size.1 + (view.height : ℤ), max size.2 (view.width : ℤ))
  else
    (size.1 + (view.width : ℤ), max size.2 (view.height : ℤ))

/-- Embedding of the automatic panorama-size estimation (lines 166-202):
the orientation tag is read from the *first valid view* (line 168), then
the loop walks all views, skips the invalid ones (lines 183-184), and
accumulates width / maximizes height according to that single tag.
Returns `none` when there is no valid view (the program has already
aborted at line 160 in that case). -/
def estimatePanoramaSize (views : List View) : Option (ℤ × ℤ) :=
  match validViews views with
  | [] => none
  | v0 :: _ =>
    some (views.foldl
      (fun size view =>
        if !view.poseAndIntrinsicDefined then size
        else sizeStep v0.orientation size view)
      (0, 0))

/-- The size estimation as claim C3 words it: every valid view classified
by *its own* orientation tag. Stated for comparison with
`estimatePanoramaSize`. -/
def estimatePanoramaSizeClaim (views : List View) : Option (ℤ × ℤ) :=
  match validViews views with
  | [] => none
  | _ :: _ =>
    some ((validViews views).foldl
      (fun size view => sizeStep view.orientation size view) (0, 0))

/-- The size estimation as the amended claim words it: iterate only the
valid views, classifying every one of them by the orientation tag of the
first valid view. -/
def estimatePanoramaSizeAmended (views : List View) : Option (ℤ × ℤ) :=
  match validViews views with
  | [] => none
  | v0 :: _ =>
    some ((validViews views).foldl (sizeStep v0.orientation) (0, 0))

/-! ## Vignette weighting (lines 231-234, 262-275) -/

/-- `maxRadius` (line 231):
`std::min(imageIn.Width(), imageIn.Height()) * 0.5f * (1.0 - fisheyeMaskingMargin)`. -/
noncomputable def maxRadius (inW inH : ℕ) (margin : ℝ) : ℝ :=
  (min inW inH : ℕ) * 0.5 * (1 - margin)

/-- `blurMid` (line 233): `maxRadius - transitionSize/2.f`. -/
noncomputable def blurMid (inW inH : ℕ) (margin transitionSize : ℝ) : ℝ :=
  maxRadius inW inH margin - transitionSize / 2

/-- `center` (line 234): `Vec2i center(imageIn.Width()/2.f, imageIn.Height()/2.f)`;
the float halves are truncated back to integers by the `Vec2i` constructor. -/
def center (inW inH : ℕ) : ℕ × ℕ := (inW / 2, inH / 2)

/-- `dist` (line 265): Euclidean distance from the projected pixel to the
integer image center. -/
noncomputable def distToCenter (inW inH : ℕ) (px py : ℝ) : ℝ :=
  Real.sqrt ((px - ((center inW inH).1 : ℝ)) * (px - ((center inW inH).1 : ℝ)) +
             (py - ((center inW inH).2 : ℝ)) * (py - ((center inW inH).2 : ℝ)))

/-- The fisheye-masking branch (lines 263-275): `none` when the projected
pixel is farther than `maxRadius` from the center (the `continue`),
otherwise the sigmoid falloff weight. -/
noncomputable def fisheyeWeight (inW inH : ℕ) (margin transitionSize : ℝ)
    (px py : ℝ) : Option ℝ :=
  if distToCenter inW inH px py > maxRadius inW inH margin then
    none
  else
    some (sigmoid (distToCenter inW inH px py) transitionSize
      (blurMid inW inH margin transitionSize))

/-- Configuration options consumed by the per-pixel pass. -/
structure Config where
  fisheyeMasking : Bool
  fisheyeMaskingMargin : ℝ
  transitionSize : ℝ

/-- Contribution weight of an in-bounds projected pixel (lines 262-275):
`1.0f` when fisheye masking is disabled, else the fisheye falloff. -/
noncomputable def computeContribution (cfg : Config) (inW inH : ℕ)
    (px py : ℝ) : Option ℝ :=
  if cfg.fisheyeMasking then
    fisheyeWeight inW inH cfg.fisheyeMaskingMargin cfg.transitionSize px py
  else
    some 1

/-! ## Per-pixel projection pass (lines 238-286) -/

/-- The per-view camera model: `camPose.getTransform().depth(ray)` and
`intrinsic.project(camPose.getTransform(), ray, true)`, abstracted as
functions of the ray (pose and intrinsic are fixed for the view). -/
structure CameraModel where
  depth : ℝ × ℝ × ℝ → ℝ
  project : ℝ × ℝ × ℝ → ℝ × ℝ

/-- One (output pixel, view) evaluation (lines 242-277): ray from the
spherical mapping, depth test (lines 246-250), backward projection and
bounds test (lines 253-260), vignette weighting (lines 262-275), bilinear
sampling (line 277, the sampler is an abstract collaborator `img`).
Returns the sampled color and its contribution weight, or `none` when the
view contributes nothing at this pixel. -/
noncomputable def processPixel (cam : CameraModel) (cfg : Config)
    (inW inH : ℕ) (outW outH : ℤ) (x y : ℝ) (img : ℝ → ℝ → RGBf) :
    Option (RGBf × ℝ) :=
  let ray := get3DPoint (x, y) outW outH
  if cam.depth ray < 0 then
    none
  else
    let pix := cam.project ray
    if pix.1 < 0 ∨ pix.1 ≥ (inW : ℝ) ∨ pix.2 < 0 ∨ pix.2 ≥ (inH : ℝ) then
      none
    else
      match computeContribution cfg inW inH pix.1 pix.2 with
      | none => none
      | some contribution => some (img pix.2 pix.1, contribution)

/-! ## Accumulation (lines 278-284) and normalization (lines 289-302) -/

/-- The accumulation guard and update (lines 278-284): add the weighted
sample into the cell only when `contribution > 0.0f`. -/
noncomputable def accumCell (cell : Cell) (pixel : RGBf) (contribution : ℝ) : Cell :=
  if contribution > 0 then
    ⟨cell.r + pixel.r * contribution,
     cell.g + pixel.g * contribution,
     cell.b + pixel.b * contribution,
     cell.a + contribution⟩
  else
    cell

/-- Folding a whole list of (color, weight) samples into a cell, in the
order the views produce them. -/
noncomputable def accumList (cell : Cell) (samples : List (RGBf × ℝ)) : Cell :=
  samples.foldl (fun c s => accumCell c s.1 s.2) cell

/-- Folding an optional per-(pixel, view) result into a cell: `none`
(`continue` in the loop) leaves the cell untouched. -/
noncomputable def applySample (cell : Cell) (s : Option (RGBf × ℝ)) : Cell :=
  match s with
  | none => cell
  | some (pixel, contribution) => accumCell cell pixel contribution

/-- The normalization pass body (lines 293-300): divide r, g, b by the
accumulated alpha when it exceeds `0.0001f`, keep the alpha itself
(line 299 is commented out); otherwise leave the cell as it is. -/
noncomputable def normalizeCell (cell : Cell) : Cell :=
  if cell.a > 0.0001 then
    ⟨cell.r / cell.a, cell.g / cell.a, cell.b / cell.a, cell.a⟩
  else
    cell

/-! ## Helper lemmas -/

/-- The sigmoid falloff is everywhere strictly positive. -/
theorem sigmoid_pos (x t mid : ℝ) : 0 < sigmoid x t mid := by
  unfold sigmoid
  positivity

/-- For a positive width parameter the sigmoid falloff is strictly
decreasing in its first argument. -/
theorem sigmoid_strictAnti (t mid : ℝ) (ht : 0 < t) :
    StrictAnti (fun x => sigmoid x t mid) := by
  intro a b hab
  simp only [sigmoid]
  have h0 : (a - mid) / t < (b - mid) / t :=
    (div_lt_div_iff_of_pos_right ht).mpr (by linarith)
  have h1 : Real.exp (10 * ((a - mid) / t)) < Real.exp (10 * ((b - mid) / t)) :=
    Real.exp_lt_exp.mpr (by linarith)
  exact one_div_lt_one_div_of_lt (by positivity) (by linarith)

/-- The sigmoid falloff takes the value 1/2 at its midpoint. -/
theorem sigmoid_at_mid (t mid : ℝ) : sigmoid mid t mid = 1 / 2 := by
  simp [sigmoid]
  norm_num

/-- Half a width parameter past the midpoint, the sigmoid falloff equals
`1 / (1 + e^5)`. -/
theorem sigmoid_at_mid_add_half (t mid : ℝ) (ht : t ≠ 0) :
    sigmoid (mid + t / 2) t mid = 1 / (1 + Real.exp 5) := by
  unfold sigmoid
  have : 10 * ((mid + t / 2 - mid) / t) = 5 := by
    field_simp
    ring
  rw [this]

/-- Accumulating a positive contribution adds the weighted sample into
every channel. -/
theorem accumCell_of_pos (cell : Cell) (pixel : RGBf) {c : ℝ} (hc : 0 < c) :
    accumCell cell pixel c =
      ⟨cell.r + pixel.r * c, cell.g + pixel.g * c,
       cell.b + pixel.b * c, cell.a + c⟩ :=
  if_pos hc

/-- Accumulating a non-positive contribution leaves the cell unchanged. -/
theorem accumCell_of_nonpos (cell : Cell) (pixel : RGBf) {c : ℝ} (hc : c ≤ 0) :
    accumCell cell pixel c = cell :=
  if_neg (by linarith)

theorem accumList_nil (cell : Cell) : accumList cell [] = cell := rfl

theorem accumList_cons (cell : Cell) (s : RGBf × ℝ) (ss : List (RGBf × ℝ)) :
    accumList cell (s :: ss) = accumList (accumCell cell s.1 s.2) ss := rfl

/-- A fold of samples whose weights are all positive lands on the
componentwise weighted sums. -/
theorem accumList_sums (samples : List (RGBf × ℝ))
    (h : ∀ s ∈ samples, 0 < s.2) (cell : Cell) :
    accumList cell samples =
      ⟨cell.r + (samples.map fun s => s.1.r * s.2).sum,
       cell.g + (samples.map fun s => s.1.g * s.2).sum,
       cell.b + (samples.map fun s => s.1.b * s.2).sum,
       cell.a + (samples.map fun s => s.2).sum⟩ := by
  induction samples generalizing cell with
  | nil => simp [accumList]
  | cons s ss ih =>
    have hs : 0 < s.2 := h s (List.mem_cons_self s ss)
    rw [accumList_cons, ih (fun x hx => h x (List.mem_cons_of_mem s hx)),
      accumCell_of_pos cell s.1 hs]
    simp only [List.map_cons, List.sum_cons, Cell.mk.injEq]
    refine ⟨by ring, by ring, by ring, by ring⟩

/-- A fold of samples with no positive weight never touches the cell. -/
theorem accumList_of_nonpos (samples : List (RGBf × ℝ))
    (h : ∀ s ∈ samples, s.2 ≤ 0) (cell : Cell) :
    accumList cell samples = cell := by
  induction samples generalizing cell with
  | nil => rfl
  | cons s ss ih =>
    rw [accumList_cons, accumCell_of_nonpos cell s.1 (h s (List.mem_cons_self s ss))]
    exact ih (fun x hx => h x (List.mem_cons_of_mem s hx)) cell

/-- Normalization never changes the stored weight. -/
theorem normalizeCell_a (cell : Cell) : (normalizeCell cell).a = cell.a := by
  unfold normalizeCell
  split <;> rfl

/-! ## Claim theorems -/

/-- C7: for every width parameter t > 0 and midpoint mid, the function
`sigmoid(x, t, mid) = 1/(1 + exp(10·(x − mid)/t))` is strictly decreasing
in x, and `sigmoid(mid, t, mid) = 0.5` exactly. -/
theorem C7_sigmoid_decreasing_and_half (t mid : ℝ) (ht : 0 < t) :
    StrictAnti (fun x => sigmoid x t mid) ∧ sigmoid mid t mid = 1 / 2 :=
  ⟨sigmoid_strictAnti t mid ht, sigmoid_at_mid t mid⟩

/-- Witness for C7 at t = 1, mid = 0. -/
theorem C7_witness : sigmoid 1 1 0 < sigmoid 0 1 0 ∧ sigmoid 0 1 0 = 1 / 2 :=
  ⟨(C7_sigmoid_decreasing_and_half 1 0 one_pos).1 (by norm_num : (0 : ℝ) < 1),
   (C7_sigmoid_decreasing_and_half 1 0 one_pos).2⟩

/-- C9: the weight stored in the alpha channel is ≥ 0 at every point of the
run: in the freshly initialized buffer, after any single accumulation step,
after folding any list of samples, and after normalization. -/
theorem C9_weight_nonneg :
    zeroCell.a = 0 ∧
    (∀ (cell : Cell) (pixel : RGBf) (c : ℝ),
      0 ≤ cell.a → 0 ≤ (accumCell cell pixel c).a) ∧
    (∀ (cell : Cell) (samples : List (RGBf × ℝ)),
      0 ≤ cell.a → 0 ≤ (accumList cell samples).a) ∧
    (∀ cell : Cell, 0 ≤ cell.a → 0 ≤ (normalizeCell cell).a) := by
  have hstep : ∀ (cell : Cell) (pixel : RGBf) (c : ℝ),
      0 ≤ cell.a → 0 ≤ (accumCell cell pixel c).a := by
    intro cell pixel c hc
    unfold accumCell
    split
    · simp only
      linarith
    · exact hc
  refine ⟨rfl, hstep, ?_, ?_⟩
  · intro cell samples
    induction samples generalizing cell with
    | nil => exact fun h => h
    | cons s ss ih =>
      intro hc
      rw [accumList_cons]
      exact ih (accumCell cell s.1 s.2) (hstep cell s.1 s.2 hc)
  · intro cell hc
    rw [normalizeCell_a]
    exact hc

/-- Witness for C9 on a concrete accumulation and normalization. -/
theorem C9_witness :
    0 ≤ (accumList zeroCell [(⟨1, 1, 1⟩, 1)]).a ∧
    0 ≤ (normalizeCell ⟨1, 1, 1, 2⟩).a := by
  refine ⟨C9_weight_nonneg.2.2.1 zeroCell [(⟨1, 1, 1⟩, 1)] ?_,
    C9_weight_nonneg.2.2.2 ⟨1, 1, 1, 2⟩ ?_⟩ <;> norm_num [zeroCell]

/-- C1: a cell accumulated from samples (c₁,w₁)…(cₖ,wₖ), all of positive
weight, whose total weight W = Σ wᵢ exceeds 1e-4, is normalized to the
weighted average (Σ wᵢ·cᵢ)/W in each of r, g, b, while the alpha channel
retains the accumulated weight W instead of being reset to 1. -/
theorem C1_normalize_weighted_average (samples : List (RGBf × ℝ))
    (hpos : ∀ s ∈ samples, 0 < s.2)
    (hW : 1e-4 < (samples.map fun s => s.2).sum) :
    normalizeCell (accumList zeroCell samples) =
      ⟨(samples.map fun s => s.1.r * s.2).sum / (samples.map fun s => s.2).sum,
       (samples.map fun s => s.1.g * s.2).sum / (samples.map fun s => s.2).sum,
       (samples.map fun s => s.1.b * s.2).sum / (samples.map fun s => s.2).sum,
       (samples.map fun s => s.2).sum⟩ := by
  rw [accumList_sums samples hpos zeroCell]
  unfold zeroCell normalizeCell
  simp only [zero_add]
  rw [if_pos (by norm_num at hW ⊢; exact hW)]

/-- Witness for C1: a single sample of color (2, 4, 6) and weight 1/2. -/
theorem C1_witness :
    normalizeCell (accumList zeroCell [(⟨2, 4, 6⟩, 1 / 2)]) = ⟨2, 4, 6, 1 / 2⟩ := by
  have h := C1_normalize_weighted_average [(⟨2, 4, 6⟩, 1 / 2)]
    (by intro s hs; simp at hs; rw [hs]; norm_num) (by norm_num)
  simp only [List.map_cons, List.map_nil, List.sum_cons, List.sum_nil] at h
  rw [h]
  norm_num

/-- C2 counterexample: a cell accumulated from one positive-weight sample
of weight 5e-5 has accumulated weight ≤ 1e-4 yet is *not* all-zero after
normalization — the pass leaves it unchanged instead of zeroing it. -/
theorem C2_counterexample :
    (accumList zeroCell [(⟨1, 1, 1⟩, 5e-5)]).a ≤ 1e-4 ∧
    0 < (accumList zeroCell [(⟨1, 1, 1⟩, 5e-5)]).a ∧
    (normalizeCell (accumList zeroCell [(⟨1, 1, 1⟩, 5e-5)])).r ≠ 0 := by
  have hcell : accumList zeroCell [(⟨1, 1, 1⟩, 5e-5)] =
      ⟨5e-5, 5e-5, 5e-5, 5e-5⟩ := by
    rw [accumList_cons, accumList_nil, accumCell_of_pos zeroCell _ (by norm_num)]
    unfold zeroCell
    norm_num
  rw [hcell]
  unfold normalizeCell
  norm_num

/-- C2 (amended): the normalization pass divides r, g, b by the weight and
keeps the weight when it exceeds 1e-4, and otherwise leaves the cell
*unchanged* (not necessarily all-zero); in particular a cell never reached
by a positive-weight contribution is still all-zero afterwards. -/
theorem C2_normalize_branches (cell : Cell) (samples : List (RGBf × ℝ))
    (hnone : ∀ s ∈ samples, s.2 ≤ 0) :
    (1e-4 < cell.a →
      normalizeCell cell = ⟨cell.r / cell.a, cell.g / cell.a, cell.b / cell.a, cell.a⟩) ∧
    (cell.a ≤ 1e-4 → normalizeCell cell = cell) ∧
    normalizeCell (accumList zeroCell samples) = zeroCell := by
  refine ⟨?_, ?_, ?_⟩
  · intro h
    unfold normalizeCell
    rw [if_pos (by norm_num at h ⊢; exact h)]
  · intro h
    unfold normalizeCell
    rw [if_neg (by norm_num at h ⊢; exact h)]
  · rw [accumList_of_nonpos samples hnone zeroCell]
    unfold normalizeCell zeroCell
    norm_num

/-- Witness for C2 (amended) at concrete cells. -/
theorem C2_witness :
    normalizeCell ⟨2, 4, 6, 2⟩ = ⟨1, 2, 3, 2⟩ ∧
    normalizeCell ⟨0, 0, 0, 5e-5⟩ = ⟨0, 0, 0, 5e-5⟩ ∧
    normalizeCell (accumList zeroCell [(⟨1, 1, 1⟩, 0)]) = zeroCell := by
  have h := C2_normalize_branches ⟨2, 4, 6, 2⟩ [(⟨1, 1, 1⟩, 0)]
    (by intro s hs; simp at hs; rw [hs])
  have h2 := C2_normalize_branches ⟨0, 0, 0, 5e-5⟩ ([] : List (RGBf × ℝ))
    (by intro s hs; simp at hs)
  refine ⟨?_, ?_, h.2.2⟩
  · rw [h.1 (by norm_num)]
    norm_num
  · exact h2.2.1 (by norm_num)

/-- Skipping the invalid views inside the fold is the same as folding over
the valid views only. -/
theorem foldl_skip_invalid (o : EEXIFOrientation) (views : List View)
    (init : ℤ × ℤ) :
    views.foldl
      (fun size view =>
        if !view.poseAndIntrinsicDefined then size else sizeStep o size view)
      init =
    (validViews views).foldl (sizeStep o) init := by
  induction views generalizing init with
  | nil => rfl
  | cons v vs ih =>
    unfold validViews
    rw [List.foldl_cons, List.filter_cons]
    cases hv : v.poseAndIntrinsicDefined with
    | false => simp only [hv, Bool.not_false, if_true, cond_false]; exact ih init
    | true =>
      simp only [hv, Bool.not_true, if_false, cond_true, List.foldl_cons]
      exact ih (sizeStep o init v)

/-- Two views exercising both orientation classes, both valid. -/
def c3Views : List View :=
  [⟨1000, 500, EEXIFOrientation.NONE, true⟩,
   ⟨1000, 500, EEXIFOrientation.RIGHT, true⟩]

/-- C3 counterexample: on a dataset whose first valid view carries a
normal tag and whose second carries a rotated tag, the code classifies
*both* views by the first view's tag (orientation is read once, before the
loop), producing (2000, 500); classifying each view by its own tag, as the
claim states, would produce (1500, 1000). -/
theorem C3_counterexample :
    estimatePanoramaSize c3Views = some (2000, 500) ∧
    estimatePanoramaSizeClaim c3Views = some (1500, 1000) ∧
    estimatePanoramaSize c3Views ≠ estimatePanoramaSizeClaim c3Views := by
  refine ⟨by decide, by decide, by decide⟩

/-- C3 (amended): the size estimation iterates only the valid views and
classifies every one of them by the orientation tag of the *first valid
view*: under a rotated first tag each valid view adds its height to the
output width and its width into the output-height maximum, and under a
normal first tag each adds its width to the output width and its height
into the output-height maximum. -/
theorem C3_first_valid_orientation (views : List View) :
    estimatePanoramaSize views = estimatePanoramaSizeAmended views := by
  unfold estimatePanoramaSize estimatePanoramaSizeAmended
  cases h : validViews views with
  | nil => rfl
  | cons v0 vs =>
    exact congrArg some
      ((foldl_skip_invalid v0.orientation views (0, 0)).trans (by rw [h]))

/-- C4: the spherical mapper is the pure function computing
x' = x − outW, y' = outH/2 − y, longitude = 2π·x'/outW,
latitude = π·y'/outH and the ray
(cos lat · cos lon, cos lat · sin lon, sin lat); for 0 ≤ x < outW the
longitude lies in [−2π, 0] (not [−π, π]), and for 0 ≤ y ≤ outH the
latitude lies in [−π/2, π/2]. -/
theorem C4_spherical_mapping (x y : ℝ) (width height : ℤ)
    (hw : 0 < width) (hh : 0 < height) :
    get3DPoint (x, y) width height =
      (Real.cos (sphLatitude y height) * Real.cos (sphLongitude x width),
       Real.cos (sphLatitude y height) * Real.sin (sphLongitude x width),
       Real.sin (sphLatitude y height)) ∧
    sphLongitude x width = π * 2 * (x - (width : ℝ)) / (width : ℝ) ∧
    sphLatitude y height = π * ((height : ℝ) / 2 - y) / (height : ℝ) ∧
    (0 ≤ x → x < (width : ℝ) → sphLongitude x width ∈ Set.Icc (-(2 * π)) 0) ∧
    (0 ≤ y → y ≤ (height : ℝ) → sphLatitude y height ∈ Set.Icc (-(π / 2)) (π / 2)) := by
  have hw' : (0 : ℝ) < (width : ℝ) := by exact_mod_cast hw
  have hh' : (0 : ℝ) < (height : ℝ) := by exact_mod_cast hh
  have hπ := Real.pi_pos
  refine ⟨rfl, rfl, rfl, ?_, ?_⟩
  · intro hx0 hxw
    unfold sphLongitude
    constructor
    · rw [le_div_iff₀ hw']
      nlinarith
    · apply div_nonpos_of_nonpos_of_nonneg
      · nlinarith
      · linarith
  · intro hy0 hyh
    unfold sphLatitude
    constructor
    · rw [le_div_iff₀ hh']
      nlinarith
    · rw [div_le_iff₀ hh']
      nlinarith

/-- Witness for C4 at x = 1, y = 1, outW = 4, outH = 2. -/
theorem C4_witness :
    sphLongitude 1 4 ∈ Set.Icc (-(2 * π)) 0 ∧
    sphLatitude 1 2 ∈ Set.Icc (-(π / 2)) (π / 2) := by
  have h := C4_spherical_mapping 1 1 4 2 (by norm_num) (by norm_num)
  exact ⟨h.2.2.2.1 (by norm_num) (by norm_num),
    h.2.2.2.2 (by norm_num) (by norm_num)⟩

/-- C5: whenever the pose's depth of the ray is negative, the (output
pixel, view) pair yields no contribution: the result is `none` whatever
the intrinsic projector is (so its value is never used, nothing is
sampled), and folding the result into the output cell leaves the cell
unchanged. -/
theorem C5_negative_depth_no_contribution (cam : CameraModel) (cfg : Config)
    (inW inH : ℕ) (outW outH : ℤ) (x y : ℝ) (img : ℝ → ℝ → RGBf) (cell : Cell)
    (hdepth : cam.depth (get3DPoint (x, y) outW outH) < 0) :
    processPixel cam cfg inW inH outW outH x y img = none ∧
    (∀ proj : ℝ × ℝ × ℝ → ℝ × ℝ,
      processPixel ⟨cam.depth, proj⟩ cfg inW inH outW outH x y img = none) ∧
    applySample cell (processPixel cam cfg inW inH outW outH x y img) = cell := by
  have hall : ∀ proj : ℝ × ℝ × ℝ → ℝ × ℝ,
      processPixel ⟨cam.depth, proj⟩ cfg inW inH outW outH x y img = none := by
    intro proj
    unfold processPixel
    exact if_pos hdepth
  have hnone : processPixel cam cfg inW inH outW outH x y img = none := by
    unfold processPixel
    exact if_pos hdepth
  exact ⟨hnone, hall, by rw [hnone]; rfl⟩

/-- Witness for C5: a camera whose depth is −1 on every ray. -/
theorem C5_witness :
    processPixel ⟨fun _ => -1, fun _ => (0, 0)⟩ ⟨false, 0.05, 10⟩
      100 100 200 100 0 0 (fun _ _ => ⟨0, 0, 0⟩) = none :=
  (C5_negative_depth_no_contribution ⟨fun _ => -1, fun _ => (0, 0)⟩
    ⟨false, 0.05, 10⟩ 100 100 200 100 0 0 (fun _ _ => ⟨0, 0, 0⟩) zeroCell
    (by norm_num)).1

/-- The distance of the projected point (100, 50) to the center of a
100×100 image. -/
theorem distToCenter_100_50 : distToCenter 100 100 100 50 = 50 := by
  unfold distToCenter center
  norm_num
  rw [show (2500 : ℝ) = 50 ^ 2 by norm_num, Real.sqrt_sq (by norm_num : (0 : ℝ) ≤ 50)]

/-- The distance of the projected point (95, 50) to the center of a
100×100 image. -/
theorem distToCenter_95_50 : distToCenter 100 100 95 50 = 45 := by
  unfold distToCenter center
  norm_num
  rw [show (2025 : ℝ) = 45 ^ 2 by norm_num, Real.sqrt_sq (by norm_num : (0 : ℝ) ≤ 45)]

/-- The fisheye radius of a 100×100 image with no margin. -/
theorem maxRadius_100 : maxRadius 100 100 0 = 50 := by
  unfold maxRadius
  norm_num

/-- The sigmoid midpoint of a 100×100 image with no margin and transition
size 10. -/
theorem blurMid_100 : blurMid 100 100 0 10 = 45 := by
  unfold blurMid
  rw [maxRadius_100]
  norm_num

/-- C6: with fisheye masking on, maxRadius = 0.5·min(w,h)·(1−margin) and
blurMid = maxRadius − transitionSize/2; a projected pixel farther than
maxRadius from the center contributes nothing, one within maxRadius gets
weight sigmoid(dist, transitionSize, blurMid); on a 100×100 image with
margin 0 and transitionSize 10, distance 50 gives weight 1/(1+e^5) and
distance 45 gives weight 1/2. -/
theorem C6_fisheye_masking (inW inH : ℕ) (margin t px py : ℝ) :
    maxRadius inW inH margin = ((min inW inH : ℕ) : ℝ) * 0.5 * (1 - margin) ∧
    blurMid inW inH margin t = maxRadius inW inH margin - t / 2 ∧
    (distToCenter inW inH px py > maxRadius inW inH margin →
      fisheyeWeight inW inH margin t px py = none) ∧
    (distToCenter inW inH px py ≤ maxRadius inW inH margin →
      fisheyeWeight inW inH margin t px py =
        some (sigmoid (distToCenter inW inH px py) t (blurMid inW inH margin t))) ∧
    fisheyeWeight 100 100 0 10 100 50 = some (1 / (1 + Real.exp 5)) ∧
    fisheyeWeight 100 100 0 10 95 50 = some (1 / 2) := by
  refine ⟨rfl, rfl, ?_, ?_, ?_, ?_⟩
  · intro hgt
    unfold fisheyeWeight
    exact if_pos hgt
  · intro hle
    unfold fisheyeWeight
    exact if_neg (not_lt.mpr hle)
  · unfold fisheyeWeight
    rw [distToCenter_100_50, maxRadius_100, if_neg (by norm_num), blurMid_100]
    congr 1
    unfold sigmoid
    norm_num
  · unfold fisheyeWeight
    rw [distToCenter_95_50, maxRadius_100, if_neg (by norm_num), blurMid_100]
    rw [sigmoid_at_mid]

/-- Witness for C6: the image center of a 100×100 image is within the
fisheye radius and receives the sigmoid weight. -/
theorem C6_witness :
    fisheyeWeight 100 100 0 10 50 50 =
      some (sigmoid (distToCenter 100 100 50 50) 10 (blurMid 100 100 0 10)) := by
  have h := C6_fisheye_masking 100 100 0 10 50 50
  refine h.2.2.2.1 ?_
  rw [maxRadius_100]
  unfold distToCenter center
  norm_num

/-- Modelled from the source: the option parsing (lines 96-108) stores any
float supplied for `transitionSize` (and any float for the margin, any
bool for the masking flag); no constraint on any of them is checked
anywhere in the program, so every such configuration is accepted. -/
def parseConfig (fisheyeMasking : Bool) (fisheyeMaskingMargin transitionSize : ℝ) :
    Option Config :=
  some ⟨fisheyeMasking, fisheyeMaskingMargin, transitionSize⟩

/-- C8: the configuration transitionSize = −1 with fisheye masking on is
*accepted* by the option parsing — there is no validation — and the
vignette weighting formula is then evaluated with this non-positive
transition size (here at the image center of a 100×100 source, yielding
the contribution 1/(1 + e^505)), contradicting the claim that such a
configuration is rejected before any accumulation. -/
theorem C8_no_transition_size_validation :
    parseConfig true 0 (-1) = some ⟨true, 0, -1⟩ ∧
    computeContribution ⟨true, 0, -1⟩ 100 100 50 50 =
      some (1 / (1 + Real.exp 505)) := by
  refine ⟨rfl, ?_⟩
  unfold computeContribution fisheyeWeight
  simp only [if_true]
  have hd : distToCenter 100 100 50 50 = 0 := by
    unfold distToCenter center
    norm_num
  rw [hd, maxRadius_100, if_neg (by norm_num)]
  congr 1
  unfold sigmoid blurMid
  rw [maxRadius_100]
  norm_num

/-- A result of the per-(pixel, view) evaluation always carries a
contribution computed by `computeContribution` at the projected point. -/
theorem processPixel_some_contribution (cam : CameraModel) (cfg : Config)
    (inW inH : ℕ) (outW outH : ℤ) (x y : ℝ) (img : ℝ → ℝ → RGBf)
    (pixel : RGBf) (c : ℝ)
    (h : processPixel cam cfg inW inH outW outH x y img = some (pixel, c)) :
    ∃ px py, computeContribution cfg inW inH px py = some c := by
  simp only [processPixel] at h
  split at h
  · exact absurd h (by simp)
  · split at h
    · exact absurd h (by simp)
    · split at h
      · exact absurd h (by simp)
      · next contribution heq =>
        refine ⟨_, _, heq.trans ?_⟩
        injection h with h'
        rw [(Prod.mk.injEq _ _ _ _).mp h' |>.2]

/-- Dissecting a successful fisheye weighting: the projected point is
within the radius and the weight is the sigmoid falloff. -/
theorem fisheyeWeight_some {inW inH : ℕ} {margin t px py c : ℝ}
    (h : fisheyeWeight inW inH margin t px py = some c) :
    distToCenter inW inH px py ≤ maxRadius inW inH margin ∧
    c = sigmoid (distToCenter inW inH px py) t (blurMid inW inH margin t) := by
  unfold fisheyeWeight at h
  split at h
  · exact absurd h (by simp)
  · next hgt => exact ⟨not_lt.mp hgt, (Option.some_inj.mp h).symm⟩

/-- Below the midpoint plus half a width, the sigmoid falloff is at least
`1 / (1 + e^5)`. -/
theorem sigmoid_lower_bound {t mid x : ℝ} (ht : 0 < t) (hx : x ≤ mid + t / 2) :
    1 / (1 + Real.exp 5) ≤ sigmoid x t mid := by
  have h := (sigmoid_strictAnti t mid ht).antitone hx
  rwa [sigmoid_at_mid_add_half t mid (ne_of_gt ht)] at h

/-- C10: with fisheye masking enabled and transitionSize > 0, every
(pixel, view) pair that passes the depth test, the bounds test and the
radius test — i.e. whose evaluation returns a sample — carries a
contribution bounded below by sigmoid(maxRadius, t, blurMid) = 1/(1+e^5),
hence strictly positive, so the `contribution > 0` accumulation guard
never discards it and the sample is accumulated into its cell. -/
theorem C10_accepted_sample_accumulated (cam : CameraModel) (cfg : Config)
    (inW inH : ℕ) (outW outH : ℤ) (x y : ℝ) (img : ℝ → ℝ → RGBf)
    (pixel : RGBf) (c : ℝ)
    (hmask : cfg.fisheyeMasking = true) (ht : 0 < cfg.transitionSize)
    (h : processPixel cam cfg inW inH outW outH x y img = some (pixel, c)) :
    sigmoid (maxRadius inW inH cfg.fisheyeMaskingMargin) cfg.transitionSize
        (blurMid inW inH cfg.fisheyeMaskingMargin cfg.transitionSize) =
      1 / (1 + Real.exp 5) ∧
    1 / (1 + Real.exp 5) ≤ c ∧
    0 < c ∧
    ∀ cell : Cell,
      accumCell cell pixel c =
        ⟨cell.r + pixel.r * c, cell.g + pixel.g * c,
         cell.b + pixel.b * c, cell.a + c⟩ := by
  obtain ⟨px, py, hc⟩ :=
    processPixel_some_contribution cam cfg inW inH outW outH x y img pixel c h
  rw [computeContribution, hmask] at hc
  simp only [if_true] at hc
  obtain ⟨hdist, hceq⟩ := fisheyeWeight_some hc
  have hmid : maxRadius inW inH cfg.fisheyeMaskingMargin =
      blurMid inW inH cfg.fisheyeMaskingMargin cfg.transitionSize +
        cfg.transitionSize / 2 := by
    unfold blurMid
    ring
  have hbound : 1 / (1 + Real.exp 5) ≤ c := by
    rw [hceq]
    exact sigmoid_lower_bound ht (by linarith [hdist, hmid.le])
  have hcpos : 0 < c := hceq ▸ sigmoid_pos _ _ _
  refine ⟨?_, hbound, hcpos, fun cell => accumCell_of_pos cell pixel hcpos⟩
  rw [hmid, sigmoid_at_mid_add_half _ _ (ne_of_gt ht)]

/-- Witness for C10: a camera projecting onto the center of a 100×100
source with fisheye masking on and transitionSize 10. -/
theorem C10_witness :
    1 / (1 + Real.exp 5) ≤ sigmoid 0 10 45 ∧ 0 < sigmoid 0 10 45 := by
  have hd : distToCenter 100 100 50 50 = 0 := by
    unfold distToCenter center
    norm_num
  have hproc : processPixel ⟨fun _ => 1, fun _ => (50, 50)⟩ ⟨true, 0, 10⟩
      100 100 200 100 0 0 (fun _ _ => ⟨1, 1, 1⟩) =
      some (⟨1, 1, 1⟩, sigmoid 0 10 45) := by
    simp only [processPixel, computeContribution, fisheyeWeight]
    rw [if_neg (by norm_num), if_neg (by norm_num), if_true, hd, maxRadius_100,
      if_neg (by norm_num), blurMid_100]
  have h := C10_accepted_sample_accumulated ⟨fun _ => 1, fun _ => (50, 50)⟩
    ⟨true, 0, 10⟩ 100 100 200 100 0 0 (fun _ _ => ⟨1, 1, 1⟩) ⟨1, 1, 1⟩
    (sigmoid 0 10 45) rfl (by norm_num) hproc
  exact ⟨h.2.1, h.2.2.1⟩

end PanoramaStitching
